import Mathlib

/-!
Verification of the structured-text rendering engine of FinanceWatcher
(frontend/src/App.js): the Formatter (section segmenter, reference
extractor, linkifier, numbered-list parser) and the incremental reveal
engine of the TypingMessage component.

Strings are modelled as their character lists (Lean strings are exactly
that), JavaScript regular-expression matching is embedded as explicit
scanners that reproduce the source patterns' backtracking behaviour, and
the timer-driven reveal loop is embedded as a step function on an explicit
session state.
-/

namespace FinanceWatcher

/-! ## JavaScript character classes -/

/-- Characters matched by the JavaScript regular-expression class for
whitespace (the class written with a backslash and the letter s). -/
def isJsWhitespace (c : Char) : Bool :=
  c = ' ' || c = '\t' || c = '\n' || c.toNat = 0x0b || c.toNat = 0x0c || c = '\r' ||
  c.toNat = 0xa0 || c.toNat = 0x1680 || (0x2000 ≤ c.toNat && c.toNat ≤ 0x200a) ||
  c.toNat = 0x2028 || c.toNat = 0x2029 || c.toNat = 0x202f || c.toNat = 0x205f ||
  c.toNat = 0x3000 || c.toNat = 0xfeff

/-- JavaScript line terminators: the dot pattern does not match these, and in
multiline mode the caret anchor matches right after any of them. -/
def isLineTerminator (c : Char) : Bool :=
  c = '\n' || c = '\r' || c.toNat = 0x2028 || c.toNat = 0x2029

/-- ASCII lowercasing, used to model case-insensitive regex flags on the
ASCII literals appearing in the source patterns. -/
def toLowerAscii (c : Char) : Char :=
  if 'A' ≤ c && c ≤ 'Z' then Char.ofNat (c.toNat + 32) else c

/-- Match a literal pattern (given in lowercase) case-insensitively at the
head of a string, returning the rest on success. -/
def matchCi : List Char → List Char → Option (List Char)
  | [], s => some s
  | _ :: _, [] => none
  | p :: ps, c :: cs => if toLowerAscii c = p then matchCi ps cs else none

/-! ## Reveal engine (TypingMessage)

The TypingMessage effect keeps a closure counter over the full text and an
interval timer; each timer tick appends one character of the text to the
displayed prefix, and the tick that finds the counter at the end clears the
interval and invokes the onComplete callback (which is what finalizes the
message in App). Cancelling (cancelTyping via cancelTypingRef) clears the
interval so no further tick fires. We model the interval by a status field:
a tick on a session whose interval is not live is a no-op, completion bumps
a counter of onComplete invocations. -/

inductive RevealStatus
  | idle
  | running
  | completed
  | cancelled
deriving DecidableEq, Repr

structure RevealSession where
  fullText : List Char
  displayedText : List Char
  currentIndex : Nat
  status : RevealStatus
  completeCount : Nat
deriving DecidableEq, Repr

/-- Session creation: the effect body returns early when the text is falsy
(in particular the empty string), so no interval is started; otherwise the
displayed text is reset and the interval begins. -/
def startTyping (t : List Char) : RevealSession :=
  if t.length = 0 then ⟨t, [], 0, .idle, 0⟩ else ⟨t, [], 0, .running, 0⟩

/-- One firing of the interval callback: while the closure counter is below
the text length, append the character at the counter and advance it;
otherwise clear the interval and invoke onComplete. A session whose
interval is not live is unaffected (no tick can fire). -/
def tick (s : RevealSession) : RevealSession :=
  match s.status with
  | .running =>
    if h : s.currentIndex < s.fullText.length then
      { s with
        displayedText := s.displayedText ++ [s.fullText.get ⟨s.currentIndex, h⟩],
        currentIndex := s.currentIndex + 1 }
    else
      { s with status := .completed, completeCount := s.completeCount + 1 }
  | _ => s

/-- Cancellation request (cancelTyping): clears the interval of a running
session; on a session whose interval is already cleared it does nothing. -/
def cancel (s : RevealSession) : RevealSession :=
  match s.status with
  | .running => { s with status := .cancelled }
  | _ => s

/-- Iterated ticks of the interval timer. -/
def revealSteps : Nat → RevealSession → RevealSession
  | 0, s => s
  | n + 1, s => tick (revealSteps n s)

theorem tick_of_terminal (s : RevealSession) (h : s.status ≠ .running) :
    tick s = s := by
  unfold tick
  cases hs : s.status <;> simp_all

theorem revealSteps_of_terminal (s : RevealSession) (h : s.status ≠ .running) :
    ∀ m, revealSteps m s = s := by
  intro m
  induction m with
  | zero => rfl
  | succ m ih => rw [revealSteps, ih, tick_of_terminal s h]

/-- Closed form for the reveal loop on a non-empty text: for the first
length-many ticks the session is running and shows the prefix of that many
characters; the following tick completes it, fires onComplete once, and
every later tick is a no-op. -/
theorem revealSteps_startTyping (t : List Char) (ht : t ≠ []) (n : Nat) :
    revealSteps n (startTyping t) =
      if n ≤ t.length then ⟨t, t.take n, n, .running, 0⟩
      else ⟨t, t, t.length, .completed, 1⟩ := by
  induction n with
  | zero =>
    have h0 : t.length ≠ 0 := by simpa using ht
    simp [revealSteps, startTyping, h0]
  | succ n ih =>
    rw [revealSteps, ih]
    by_cases h : n ≤ t.length
    · rw [if_pos h]
      by_cases h2 : n + 1 ≤ t.length
      · have hlt : n < t.length := h2
        rw [if_pos h2]
        show tick ⟨t, t.take n, n, .running, 0⟩ = ⟨t, t.take (n + 1), n + 1, .running, 0⟩
        unfold tick
        simp only [dif_pos hlt]
        have : t.take n ++ [t.get ⟨n, hlt⟩] = t.take (n + 1) := by
          rw [List.take_succ]
          congr 1
          simp [List.getElem?_eq_getElem hlt, List.get_eq_getElem]
        simp [this]
      · have hn : n = t.length := by omega
        rw [if_neg h2]
        subst hn
        show tick ⟨t, t.take t.length, t.length, .running, 0⟩ = ⟨t, t, t.length, .completed, 1⟩
        unfold tick
        simp
    · rw [if_neg h, if_neg (by omega)]
      exact tick_of_terminal _ (by simp)

/-- Claim C1: driving the reveal loop of a non-empty text to natural
completion (one tick past the text length) shows the full text untruncated,
the session is completed exactly then — any completed state displays the
whole text — and the onComplete signal has fired exactly once and never
fires again. -/
theorem revealEngine_completes (t : List Char) (ht : t ≠ []) :
    (revealSteps (t.length + 1) (startTyping t)).displayedText = t ∧
    (revealSteps (t.length + 1) (startTyping t)).displayedText.length = t.length ∧
    (revealSteps (t.length + 1) (startTyping t)).status = .completed ∧
    (revealSteps (t.length + 1) (startTyping t)).completeCount = 1 ∧
    (∀ n, (revealSteps n (startTyping t)).status = .completed →
      (revealSteps n (startTyping t)).displayedText = t) ∧
    (∀ m, (revealSteps (t.length + 1 + m) (startTyping t)).completeCount = 1) := by
  have key := revealSteps_startTyping t ht
  have hlen : ¬ (t.length + 1 ≤ t.length) := by omega
  refine ⟨?_, ?_, ?_, ?_, ?_, ?_⟩
  · rw [key, if_neg hlen]
  · rw [key, if_neg hlen]
  · rw [key, if_neg hlen]
  · rw [key, if_neg hlen]
  · intro n hn
    rw [key] at hn ⊢
    by_cases h : n ≤ t.length
    · rw [if_pos h] at hn; exact absurd hn (by simp)
    · rw [if_neg h]
  · intro m
    rw [key, if_neg (by omega)]

theorem revealEngine_completes_witness :
    (revealSteps 3 (startTyping ['h', 'i'])).displayedText = ['h', 'i'] ∧
    (revealSteps 3 (startTyping ['h', 'i'])).status = .completed ∧
    (revealSteps 3 (startTyping ['h', 'i'])).completeCount = 1 := by
  have h := revealEngine_completes ['h', 'i'] (by decide)
  exact ⟨h.1, h.2.2.1, h.2.2.2.1⟩

/-- Claim C2 counterexample: on the empty text the effect returns before
starting the interval, so the session never reaches the completed state and
the completion signal never fires (here: still unfired after five timer
periods), contradicting the claim that it transitions straight to Completed
and fires completion once. -/
theorem revealEngine_empty_counterexample :
    (revealSteps 5 (startTyping [])).status = RevealStatus.idle ∧
    (revealSteps 5 (startTyping [])).completeCount = 0 ∧
    (startTyping []).status ≠ RevealStatus.completed := by decide

/-- Claim C2 amended: on the empty text the reveal effect returns without
starting the interval: no tick ever occurs, nothing is revealed, the
session stays idle forever, and the completion signal never fires. (In App
an empty backend response is replaced by a fallback message before reaching
TypingMessage, so this path shows no message finalization.) -/
theorem revealEngine_empty (n : Nat) :
    revealSteps n (startTyping []) = ⟨[], [], 0, .idle, 0⟩ := by
  have h : startTyping [] = ⟨[], [], 0, .idle, 0⟩ := by rfl
  have := revealSteps_of_terminal (startTyping []) (by rw [h]; simp) n
  rw [this, h]

/-- Claim C3: cancelling after k ticks of a non-empty text (any k up to the
text length — the session is still running then) stops the interval: the
session is cancelled, the revealed prefix is exactly the first k characters
and stays so permanently (every later tick is a no-op), and onComplete has
not fired, so no message is finalized. -/
theorem cancel_freezes (t : List Char) (k : Nat) (ht : t ≠ []) (hk : k ≤ t.length) :
    (revealSteps k (startTyping t)).status = .running ∧
    (cancel (revealSteps k (startTyping t))).status = .cancelled ∧
    (cancel (revealSteps k (startTyping t))).displayedText = t.take k ∧
    (cancel (revealSteps k (startTyping t))).displayedText.length = k ∧
    (∀ m, revealSteps m (cancel (revealSteps k (startTyping t))) =
      cancel (revealSteps k (startTyping t))) ∧
    (cancel (revealSteps k (startTyping t))).completeCount = 0 := by
  have key := revealSteps_startTyping t ht k
  rw [if_pos hk] at key
  rw [key]
  have hc : cancel ⟨t, t.take k, k, .running, 0⟩ = ⟨t, t.take k, k, .cancelled, 0⟩ := rfl
  rw [hc]
  refine ⟨rfl, rfl, rfl, ?_, ?_, rfl⟩
  · simp [List.length_take, Nat.min_eq_left hk]
  · intro m
    exact revealSteps_of_terminal _ (by simp) m

theorem cancel_freezes_witness :
    (cancel (revealSteps 2 (startTyping ['a', 'b', 'c']))).status = .cancelled ∧
    (cancel (revealSteps 2 (startTyping ['a', 'b', 'c']))).displayedText = ['a', 'b'] ∧
    (cancel (revealSteps 2 (startTyping ['a', 'b', 'c']))).completeCount = 0 := by
  have h := cancel_freezes ['a', 'b', 'c'] 2 (by decide) (by decide)
  exact ⟨h.2.1, by rw [h.2.2.1]; rfl, h.2.2.2.2.2⟩

/-- Claim C4: per-step invariants of the reveal engine, for any session
state: while running a tick never shrinks the revealed prefix; while
running and strictly inside the text a tick reveals exactly one more
character; and a tick on a cancelled or completed session (whose interval
is cleared) changes nothing at all. -/
theorem tick_invariants (s : RevealSession) :
    (s.status = .running →
      s.displayedText.length ≤ (tick s).displayedText.length) ∧
    (s.status = .running → s.currentIndex < s.fullText.length →
      (tick s).displayedText.length = s.displayedText.length + 1) ∧
    ((s.status = .cancelled ∨ s.status = .completed) → tick s = s) := by
  refine ⟨?_, ?_, ?_⟩
  · intro hr
    unfold tick
    rw [hr]
    by_cases h : s.currentIndex < s.fullText.length
    · simp [dif_pos h]
    · simp [dif_neg h]
  · intro hr h
    unfold tick
    rw [hr]
    simp [dif_pos h]
  · intro hterm
    apply tick_of_terminal
    rcases hterm with h | h <;> simp [h]

theorem tick_invariants_witness :
    (tick ⟨['a', 'b'], ['a'], 1, .running, 0⟩).displayedText.length =
      (⟨['a', 'b'], ['a'], 1, .running, 0⟩ : RevealSession).displayedText.length + 1 ∧
    tick ⟨['a'], [], 0, .cancelled, 0⟩ = ⟨['a'], [], 0, .cancelled, 0⟩ := by
  refine ⟨(tick_invariants _).2.1 rfl (by decide), (tick_invariants _).2.2 (Or.inl rfl)⟩

/-! ## Linkifier (getWebsiteName and replaceUrlsWithLinks)

The source scans a fragment with the global case-insensitive pattern
optional star, optional Source label, optional url label, captured http(s)
URL (a run of characters that are neither whitespace nor a star), optional
trailing star. For this pattern the backtracking search is deterministic:
whenever an optional decoration is present at the scan position, skipping
it cannot rescue a failed match (the following literals url/http cannot
start with a star, whitespace, or inside a consumed label), so each
position is decided by a single greedy pass, and the engine advances one
character on failure, or past the whole match on success, exactly as the
exec loop with lastIndex does. -/

/-- Characters allowed inside the captured URL: the negated class of
whitespace and the star. -/
def isUrlBodyChar (c : Char) : Bool := !isJsWhitespace c && c ≠ '*'

/-- Match the scheme part http(s):// case-insensitively, preferring the
variant with the letter s as the greedy optional quantifier does; returns
the consumed length and the rest. -/
def matchScheme (s : List Char) : Option (Nat × List Char) :=
  (matchCi ['h', 't', 't', 'p'] s).bind fun s1 =>
    match matchCi ['s', ':', '/', '/'] s1 with
    | some r => some (8, r)
    | none => (matchCi [':', '/', '/'] s1).map fun r => (7, r)

/-- Match the captured URL group: scheme followed by a non-empty greedy run
of URL body characters. Returns the capture length and the rest. -/
def matchUrlCore (s : List Char) : Option (Nat × List Char) :=
  (matchScheme s).bind fun p =>
    let body := p.2.takeWhile isUrlBodyChar
    if body.length = 0 then none
    else some (p.1 + body.length, p.2.drop body.length)

/-- Attempt the full linkifier pattern at one position: optional star,
optional case-insensitive Source label with trailing whitespace, optional
case-insensitive url label with optional colon and trailing whitespace,
the captured URL, optional trailing star. Returns the total match length
and the captured URL text (original characters). -/
def matchUrlAt (s : List Char) : Option (Nat × List Char) :=
  let (d1, s1) :=
    match s with
    | '*' :: r => (1, r)
    | _ => (0, s)
  let (d2, s2) :=
    match matchCi ['s', 'o', 'u', 'r', 'c', 'e', ':'] s1 with
    | some r => (7 + (r.takeWhile isJsWhitespace).length, r.dropWhile isJsWhitespace)
    | none => (0, s1)
  let (d3, s3) :=
    match matchCi ['u', 'r', 'l'] s2 with
    | some r =>
      let (dc, r2) :=
        match r with
        | ':' :: rr => (1, rr)
        | _ => (0, r)
      (3 + dc + (r2.takeWhile isJsWhitespace).length, r2.dropWhile isJsWhitespace)
    | none => (0, s2)
  (matchUrlCore s3).map fun p =>
    let d4 :=
      match p.2 with
      | '*' :: _ => 1
      | _ => 0
    (d1 + d2 + d3 + p.1 + d4, s3.take p.1)

/-- Forbidden host code points of the WHATWG URL standard (with the percent
sign treated as forbidden outright; see parseHost). -/
def forbiddenHostChar (c : Char) : Bool :=
  c.toNat = 0 || c = '\t' || c = '\n' || c = '\r' || c = ' ' || c = '#' ||
  c = '/' || c = ':' || c = '<' || c = '>' || c = '?' || c = '@' || c = '[' ||
  c = '\\' || c = ']' || c = '^' || c = '|' || c = '%'

/-- Suffix after the last at-sign (userinfo stripping of the authority). -/
def afterLastAt (l : List Char) : List Char :=
  (l.reverse.takeWhile (· ≠ '@')).reverse

/-- Numeric value of a digit string. -/
def portVal (p : List Char) : Nat :=
  p.foldl (fun n c => n * 10 + (c.toNat - 48)) 0

/-- A port is valid when it is all digits (possibly empty) and its value
fits in sixteen bits. -/
def portOk (p : List Char) : Bool :=
  p.all Char.isDigit && portVal p < 65536

def isHexDigitC (c : Char) : Bool :=
  c.isDigit || ('a' ≤ toLowerAscii c && toLowerAscii c ≤ 'f')

/-- Model of the hostname computed by the browser URL constructor for the
http(s) URLs this application passes it (the argument always begins with
the captured scheme): strip the scheme, cut the authority at the first
slash, question mark, hash, or backslash, drop userinfo up to the last
at-sign, split off and validate an optional numeric port, and reject an
empty host or one containing a forbidden host code point; bracketed IPv6
literals are accepted when their interior looks like an IPv6 address. The
model lowercases ASCII instead of full IDNA mapping and treats a percent
sign as invalid rather than percent-decoding; internationalized or
percent-encoded hostnames do not occur in this application's data. A none
result models the constructor throwing, which getWebsiteName catches. -/
def parseHost (url : String) : Option String :=
  match (matchCi ['h', 't', 't', 'p'] url.toList).bind (fun s1 =>
      match matchCi ['s', ':', '/', '/'] s1 with
      | some r => some r
      | none => matchCi [':', '/', '/'] s1) with
  | none => none
  | some afterScheme =>
    let auth := afterScheme.takeWhile fun c => c ≠ '/' && c ≠ '?' && c ≠ '#' && c ≠ '\\'
    let hostport := afterLastAt auth
    match hostport with
    | '[' :: rest =>
      let interior := rest.takeWhile (· ≠ ']')
      if (rest.drop interior.length).isEmpty then none
      else
        let pOk :=
          match rest.drop (interior.length + 1) with
          | [] => true
          | ':' :: p => portOk p
          | _ => false
        if !interior.isEmpty && interior.all (fun c => isHexDigitC c || c = ':' || c = '.') &&
            interior.contains ':' && pOk then
          some ⟨'[' :: (interior.map toLowerAscii ++ [']'])⟩
        else none
    | _ =>
      let host := hostport.takeWhile (· ≠ ':')
      let pOk :=
        match hostport.drop host.length with
        | [] => true
        | ':' :: p => portOk p
        | _ => false
      if !host.isEmpty && host.all (fun c => !forbiddenHostChar c) && pOk then
        some ⟨host.map toLowerAscii⟩
      else none

/-- Anchored replacement of a leading www. in the hostname. -/
def stripWww (h : String) : String :=
  match h.toList with
  | 'w' :: 'w' :: 'w' :: '.' :: rest => (⟨rest⟩ : String)
  | _ => h

/-- Label derivation of the linkifier: hostname of the parsed URL with a
leading www. stripped, falling back to the raw URL text when the URL
constructor throws. -/
def getWebsiteName (url : String) : String :=
  match parseHost url with
  | some h => stripWww h
  | none => url

/-- One piece of the inline content produced by the linkifier: a plain text
span, or an anchor whose target is the captured URL and whose label is
derived by getWebsiteName. -/
inductive Part where
  | text (s : String)
  | link (href : String) (label : String)
deriving DecidableEq, Repr

/-- Scanner of replaceUrlsWithLinks: walk the fragment; the reversed
accumulator holds the plain text since the end of the previous match (the
substring the source takes between lastIndex and the match index); on a
match, flush it if non-empty, emit the link, and continue right after the
match (the skip counter consumes the rest of the matched characters); at
the end, flush the trailing text if non-empty. -/
def linkAux : List Char → Nat → List Char → List Part
  | [], _, acc => if acc.isEmpty then [] else [Part.text ⟨acc.reverse⟩]
  | _ :: rest, skip + 1, acc => linkAux rest skip acc
  | c :: rest, 0, acc =>
    match matchUrlAt (c :: rest) with
    | some (len, cap) =>
      (if acc.isEmpty then [] else [Part.text ⟨acc.reverse⟩]) ++
        Part.link ⟨cap⟩ (getWebsiteName ⟨cap⟩) :: linkAux rest (len - 1) []
    | none => linkAux rest 0 (c :: acc)

/-- The linkifier of the Formatter. -/
def replaceUrlsWithLinks (text : String) : List Part :=
  linkAux text.toList 0 []

example : getWebsiteName "http://www.example.com/a" = "example.com" := by decide

example : getWebsiteName "http://^" = "http://^" := by decide

example : replaceUrlsWithLinks "url: http://example.com/page" =
    [Part.link "http://example.com/page" "example.com"] := by decide

example : replaceUrlsWithLinks "**Intro**: Hello world. 1: url: http://example.com/page" =
    [Part.text "**Intro**: Hello world. 1: ",
     Part.link "http://example.com/page" "example.com"] := by decide


/-! ## Reference extractor

The reference pattern is the linkifier pattern with a line-anchored
numbered label in front (multiline, global, case-insensitive): optional
star, digits, optional star, colon, whitespace, optional star, optional
url label, captured URL, optional star. The same determinism argument
applies; the caret anchor restricts match attempts to the start of the
input and positions right after a line terminator. -/

structure Reference where
  number : String
  url : String
deriving DecidableEq, Repr

/-- Attempt the reference pattern at one (line-start) position, returning
the captured label digits, the captured URL and the match length. -/
def matchRefAt (s : List Char) : Option (String × String × Nat) :=
  let (d1, s1) :=
    match s with
    | '*' :: r => (1, r)
    | _ => (0, s)
  let digits := s1.takeWhile Char.isDigit
  if digits.length = 0 then none
  else
    let s2 := s1.drop digits.length
    ((match s2 with
      | '*' :: ':' :: r => some (2, r)
      | ':' :: r => some (1, r)
      | _ => none) : Option (Nat × List Char)).bind fun q =>
      let w := (q.2.takeWhile isJsWhitespace).length
      let s3 := q.2.drop w
      let (d5, s4) :=
        match s3 with
        | '*' :: r => (1, r)
        | _ => (0, s3)
      let (d6, s5) :=
        match matchCi ['u', 'r', 'l'] s4 with
        | some r =>
          let (dc, r2) :=
            match r with
            | ':' :: rr => (1, rr)
            | _ => (0, r)
          (3 + dc + (r2.takeWhile isJsWhitespace).length, r2.dropWhile isJsWhitespace)
        | none => (0, s4)
      (matchUrlCore s5).map fun p =>
        let d7 :=
          match p.2 with
          | '*' :: _ => 1
          | _ => 0
        ((⟨digits⟩ : String), (⟨s5.take p.1⟩ : String),
          d1 + digits.length + q.1 + w + d5 + d6 + p.1 + d7)

/-- Scanner of the reference exec loop: try the pattern at the start of the
input and after every line terminator, resuming right after each match. -/
def refAux : List Char → Bool → Nat → List Reference
  | [], _, _ => []
  | c :: rest, _, skip + 1 => refAux rest (isLineTerminator c) skip
  | c :: rest, atLineStart, 0 =>
    if atLineStart then
      match matchRefAt (c :: rest) with
      | some (num, url, len) => ⟨num, url⟩ :: refAux rest (isLineTerminator c) (len - 1)
      | none => refAux rest (isLineTerminator c) 0
    else refAux rest (isLineTerminator c) 0

/-- The reference extractor of the Formatter. -/
def extractReferences (text : String) : List Reference :=
  refAux text.toList true 0

/-! ## Section segmenter

The section pattern captures a header between double-star markers (the
header itself is a lazy non-empty run of non-terminator characters),
consumes an optional colon and whitespace, and captures a lazy body up to
a lookahead that requires either another header or the end of the input.
The body always extends to the nearest such point because the end of input
qualifies, so a match at a given position is again decided
deterministically; the exec loop resumes at the lookahead position. -/

/-- Offset of the nearest double star reachable through non-terminator
characters (the closing marker the lazy header run stops at). -/
def findStarStar : List Char → Option Nat
  | '*' :: '*' :: _ => some 0
  | c :: rest => if isLineTerminator c then none else (findStarStar rest).map (· + 1)
  | [] => none

/-- Whether a double star is reachable from here through a possibly empty
run of non-terminator characters. -/
def starsReachable : List Char → Bool
  | '*' :: '*' :: _ => true
  | c :: rest => !isLineTerminator c && starsReachable rest
  | [] => false

/-- Whether a whole header token (double star, non-empty non-terminator
run, double star) starts at this position: the lookahead of the section
pattern. -/
def headerStartsHere : List Char → Bool
  | '*' :: '*' :: c :: rest => !isLineTerminator c && starsReachable rest
  | _ => false

/-- Length of the lazy body: distance to the nearest position where a
header token starts, or to the end of the input. -/
def findBodyEnd : List Char → Nat
  | [] => 0
  | c :: rest => if headerStartsHere (c :: rest) then 0 else 1 + findBodyEnd rest

/-- Attempt the section pattern at one position, returning the raw header
capture, the body capture and the match length (up to the lookahead). -/
def matchSectionAt (s : List Char) : Option (List Char × List Char × Nat) :=
  match s with
  | '*' :: '*' :: c :: rest =>
    if isLineTerminator c then none
    else
      match findStarStar rest with
      | none => none
      | some p =>
        let hdr := c :: rest.take p
        let afterHeader := rest.drop (p + 2)
        let (dc, s3) :=
          match afterHeader with
          | ':' :: r => ((1 : Nat), r)
          | _ => (0, afterHeader)
        let w := (s3.takeWhile isJsWhitespace).length
        let s4 := s3.drop w
        let bodyLen := findBodyEnd s4
        some (hdr, s4.take bodyLen, 2 + (p + 1) + 2 + dc + w + bodyLen)
  | _ => none

/-- Right-then-left trim of JavaScript string trim (whitespace and line
terminators are all in the whitespace class). -/
def jsTrim (l : List Char) : List Char :=
  ((l.reverse.dropWhile isJsWhitespace).reverse).dropWhile isJsWhitespace

/-- Splitter of the body on runs of two or more newline characters,
accumulating the current piece reversed and the count of newlines just
seen: a run of at least two ends the piece; a shorter run flows back into
the piece. -/
def splitNLAux : List Char → List Char → Nat → List (List Char)
  | [], acc, pending =>
    if 2 ≤ pending then [acc.reverse, []]
    else [acc.reverse ++ List.replicate pending '\n']
  | c :: rest, acc, pending =>
    if c = '\n' then splitNLAux rest acc (pending + 1)
    else if 2 ≤ pending then acc.reverse :: splitNLAux rest [c] 0
    else splitNLAux rest (c :: (List.replicate pending '\n' ++ acc)) 0

/-- Paragraphs of a section body: split on runs of two or more newlines,
trim each piece, and drop the pieces that are empty after trimming. -/
def paragraphsOf (body : List Char) : List (List Char) :=
  ((splitNLAux body [] 0).map jsTrim).filter fun p => !p.isEmpty

structure TextSection where
  header : String
  isNumberedHeader : Bool
  paragraphs : List String
deriving DecidableEq, Repr

/-- Numbered-header post-processing of a captured header: when it matches
digits, a dot, optional whitespace and a non-empty remainder, mark the
section numbered and store the remainder; otherwise keep the header as
captured. -/
def processHeader (h : List Char) : Bool × List Char :=
  let d := h.takeWhile Char.isDigit
  if d.length = 0 then (false, h)
  else
    match h.drop d.length with
    | '.' :: rest =>
      if rest.length = 0 then (false, h)
      else (true, rest.drop (min (rest.takeWhile isJsWhitespace).length (rest.length - 1)))
    | _ => (false, h)

def mkSection (hdr body : List Char) : TextSection :=
  let hp := processHeader hdr
  ⟨⟨hp.2⟩, hp.1, (paragraphsOf body).map fun p => (⟨p⟩ : String)⟩

/-- Scanner of the section exec loop. -/
def sectionAux : List Char → Nat → List TextSection
  | [], _ => []
  | _ :: rest, skip + 1 => sectionAux rest skip
  | c :: rest, 0 =>
    match matchSectionAt (c :: rest) with
    | some (hdr, body, len) => mkSection hdr body :: sectionAux rest (len - 1)
    | none => sectionAux rest 0

/-- The section segmenter of the Formatter. -/
def extractSections (text : String) : List TextSection :=
  sectionAux text.toList 0

example : extractSections "**Summary**\n\nLine one.\n\n**Risks**\n\nLine two." =
    [⟨"Summary", false, ["Line one."]⟩, ⟨"Risks", false, ["Line two."]⟩] := by decide

example : extractSections "no header here" = [] := by decide

example : extractReferences "**Intro**: Hello world. 1: url: http://example.com/page" = [] := by
  decide

example : extractReferences "**Intro**: Hello world.\n1: url: http://example.com/page" =
    [⟨"1", "http://example.com/page"⟩] := by decide

example : paragraphsOf "a\n\nb".toList = [['a'], ['b']] := by decide

example : paragraphsOf "  \n\n x \ny\n\n".toList = [['x', ' ', '\n', 'y']] := by decide


/-! ## Numbered-list parser

The list-item pattern matches, at a line start, digits, a dot, greedy
whitespace (at least one character) and a greedy non-empty run of
non-terminator characters; the greedy whitespace backtracks when the
content run would otherwise be empty, and since non-terminator whitespace
is matched by the dot, content may then begin inside the whitespace run.
The matched content is split on its first colon into a non-empty title and
a non-empty description (whitespace after the colon consumed greedily,
backtracking likewise) when possible. -/

structure NumItem where
  number : String
  title : Option String
  body : List Part
deriving DecidableEq, Repr

/-- Largest index k with 1 ≤ k < n whose character is not a line
terminator: the backtracking of the greedy whitespace run when the content
would otherwise be empty. -/
def lastContentStart (t : List Char) : Nat → Option Nat
  | 0 => none
  | n + 1 =>
    if 1 ≤ n &&
        (match t.get? n with
         | some c => !isLineTerminator c
         | none => false) then some n
    else lastContentStart t n

/-- Attempt the list-item pattern at one (line-start) position, returning
the captured digits, the captured content and the match length. -/
def matchListItemAt (s : List Char) : Option (String × String × Nat) :=
  let digits := s.takeWhile Char.isDigit
  if digits.length = 0 then none
  else
    match s.drop digits.length with
    | '.' :: t =>
      let w := (t.takeWhile isJsWhitespace).length
      if w = 0 then none
      else
        match (if !(t.drop w).isEmpty then some w else lastContentStart t w) with
        | none => none
        | some k =>
          let content := (t.drop k).takeWhile fun c => !isLineTerminator c
          some (⟨digits⟩, ⟨content⟩, digits.length + 1 + k + content.length)
    | _ => none

/-- Title/description split of an item content on the first colon that
leaves a non-empty remainder; the first character always belongs to the
title. Returns the title and the raw remainder after the colon. -/
def colonSplitAux : List Char → List Char → Option (List Char × List Char)
  | pre, ':' :: r => if r.isEmpty then none else some (pre.reverse, r)
  | pre, c :: r => colonSplitAux (c :: pre) r
  | _, [] => none

def colonSplit (content : List Char) : Option (List Char × List Char) :=
  match content with
  | c :: rest => colonSplitAux [c] rest
  | [] => none

/-- Build a list item from the captured number and content: split on the
first usable colon into an emphasized title plus linkified description, or
linkify the whole content. -/
def mkListItem (number content : String) : NumItem :=
  match colonSplit content.toList with
  | some (title, rest) =>
    let desc := rest.drop (min (rest.takeWhile isJsWhitespace).length (rest.length - 1))
    ⟨number, some ⟨title⟩, replaceUrlsWithLinks ⟨desc⟩⟩
  | none => ⟨number, none, replaceUrlsWithLinks content⟩

/-- Scanner of the list-item exec loop (line-anchored like refAux). -/
def listAux : List Char → Bool → Nat → List NumItem
  | [], _, _ => []
  | c :: rest, _, skip + 1 => listAux rest (isLineTerminator c) skip
  | c :: rest, atLineStart, 0 =>
    if atLineStart then
      match matchListItemAt (c :: rest) with
      | some (num, content, len) =>
        mkListItem num content :: listAux rest (isLineTerminator c) (len - 1)
      | none => listAux rest (isLineTerminator c) 0
    else listAux rest (isLineTerminator c) 0

/-- The numbered-list parser of the Formatter: null (none) when no line
matches, otherwise the items in line order. -/
def parseNumberedList (paragraph : String) : Option (List NumItem) :=
  let items := listAux paragraph.toList true 0
  if items.isEmpty then none else some items

/-! ## Formatter composition -/

/-- One node of the render tree produced by the Formatter: a block header,
a paragraph (with the section header inlined in front when the section has
a numbered header), a numbered list, or the trailing references block. -/
inductive RenderNode where
  | header (title : String)
  | para (inlineHeader : Option String) (content : List Part)
  | list (items : List NumItem)
  | referencesBlock (refs : List Reference)
deriving DecidableEq, Repr

/-- Rendering of one section: its block header first unless the header is
numbered, then per paragraph either the parsed numbered list or a plain
linkified paragraph carrying the inline header when the header is
numbered. -/
def renderSection (sec : TextSection) : List RenderNode :=
  (if sec.isNumberedHeader then [] else [RenderNode.header sec.header]) ++
    sec.paragraphs.map fun para =>
      match parseNumberedList para with
      | some items => RenderNode.list items
      | none =>
        RenderNode.para (if sec.isNumberedHeader then some sec.header else none)
          (replaceUrlsWithLinks para)

/-- The whole Formatter render: all sections in order followed by the
references block when any references were extracted. -/
def formatText (text : String) : List RenderNode :=
  ((extractSections text).map renderSection).flatten ++
    (if (extractReferences text).isEmpty then []
     else [RenderNode.referencesBlock (extractReferences text)])

example : parseNumberedList "1. A: b\n2. c" =
    some [⟨"1", some "A", [Part.text "b"]⟩, ⟨"2", none, [Part.text "c"]⟩] := by decide

example : parseNumberedList "just prose" = none := by decide

example : formatText "hello" = [] := by decide

example : formatText "**Intro**\n\nSee http://www.a.com/x" =
    [RenderNode.header "Intro",
     RenderNode.para none [Part.text "See ", Part.link "http://www.a.com/x" "a.com"]] := by decide

example : formatText "**2. Details**: first\n\n1. x: y" =
    [RenderNode.para (some "Details") [Part.text "first"],
     RenderNode.list [⟨"1", some "x", [Part.text "y"]⟩]] := by decide


/-! ## Whole-input search predicates

Booleans stating that some position of the input admits a match of the
corresponding pattern; used to phrase the no-match fallback claims. -/

/-- Whether the section-header pattern matches anywhere in the text. -/
def hasHeaderToken : List Char → Bool
  | [] => false
  | c :: rest => (matchSectionAt (c :: rest)).isSome || hasHeaderToken rest

/-- Whether the linkifier URL pattern matches anywhere in the fragment. -/
def hasUrlOccurrence : List Char → Bool
  | [] => false
  | c :: rest => (matchUrlAt (c :: rest)).isSome || hasUrlOccurrence rest

/-- Whether the list-item pattern matches at some line start. -/
def hasListLine : List Char → Bool → Bool
  | [], _ => false
  | c :: rest, atLineStart =>
    (atLineStart && (matchListItemAt (c :: rest)).isSome) ||
      hasListLine rest (isLineTerminator c)

theorem sectionAux_eq_nil (s : List Char) (h : hasHeaderToken s = false) :
    sectionAux s 0 = [] := by
  induction s with
  | nil => rfl
  | cons c rest ih =>
    simp only [hasHeaderToken, Bool.or_eq_false_iff] at h
    cases hm : matchSectionAt (c :: rest) with
    | some v => rw [hm] at h; simp at h
    | none => simp only [sectionAux, hm]; exact ih h.2

theorem listAux_eq_nil (s : List Char) :
    ∀ b, hasListLine s b = false → listAux s b 0 = [] := by
  induction s with
  | nil => intro b _; rfl
  | cons c rest ih =>
    intro b h
    simp only [hasListLine, Bool.or_eq_false_iff, Bool.and_eq_false_iff] at h
    cases hb : b with
    | false =>
      have step : listAux (c :: rest) false 0 = listAux rest (isLineTerminator c) 0 := by
        simp [listAux]
      rw [step]; exact ih _ h.2
    | true =>
      rw [hb] at h
      cases hm : matchListItemAt (c :: rest) with
      | some v => rcases h.1 with h1 | h1 <;> simp [hm] at h1
      | none =>
        have step : listAux (c :: rest) true 0 = listAux rest (isLineTerminator c) 0 := by
          simp [listAux, hm]
        rw [step]; exact ih _ h.2

theorem linkAux_no_match (s : List Char) (h : hasUrlOccurrence s = false) :
    ∀ acc, linkAux s 0 acc =
      if (acc.reverse ++ s).isEmpty then [] else [Part.text ⟨acc.reverse ++ s⟩] := by
  induction s with
  | nil => intro acc; simp [linkAux]
  | cons c rest ih =>
    intro acc
    simp only [hasUrlOccurrence, Bool.or_eq_false_iff] at h
    cases hm : matchUrlAt (c :: rest) with
    | some v => rw [hm] at h; simp at h
    | none =>
      simp only [linkAux, hm]
      rw [ih h.2 (c :: acc)]
      simp

/-- Claim C5 counterexample: an input without any header token is rendered
as the empty tree — the raw text is not kept as a fallback paragraph, so a
non-empty input can produce an empty render. -/
theorem formatter_no_header_counterexample :
    formatText "hello" = [] ∧ ("hello" : String) ≠ "" := by decide

/-- Claim C5 amended: when the input contains no header token the segmenter
yields no sections and the Formatter renders nothing at all apart from the
references block when reference lines exist; there is no fallback paragraph
for the raw text. -/
theorem formatter_no_header (t : String) (h : hasHeaderToken t.toList = false) :
    extractSections t = [] ∧
    formatText t =
      (if (extractReferences t).isEmpty then []
       else [RenderNode.referencesBlock (extractReferences t)]) := by
  have hs : extractSections t = [] := sectionAux_eq_nil t.toList h
  refine ⟨hs, ?_⟩
  unfold formatText
  rw [hs]
  rfl

theorem formatter_no_header_witness :
    extractSections "plain text" = [] ∧
    formatText "plain text" =
      (if (extractReferences "plain text").isEmpty then []
       else [RenderNode.referencesBlock (extractReferences "plain text")]) :=
  formatter_no_header "plain text" (by decide)

/-- Claim C6 counterexample: on the single-line input of the claim the
reference extractor yields no reference at all — the numbered label sits in
the middle of the line and the pattern is anchored to line starts — so it
does not yield the claimed one-element list. -/
theorem reference_example_counterexample :
    extractReferences "**Intro**: Hello world. 1: url: http://example.com/page" = [] ∧
    ([] : List Reference) ≠ [⟨"1", "http://example.com/page"⟩] := by decide

/-- Claim C6 amended: on the claimed input the reference extractor yields
no references, because the label 1: is not at a line start; the linkifier
on the same text does produce the link labeled example.com, and on the
variant with the reference on its own line the extractor yields exactly the
claimed reference. -/
theorem reference_example_amended :
    extractReferences "**Intro**: Hello world. 1: url: http://example.com/page" = [] ∧
    replaceUrlsWithLinks "**Intro**: Hello world. 1: url: http://example.com/page" =
      [Part.text "**Intro**: Hello world. 1: ",
       Part.link "http://example.com/page" "example.com"] ∧
    extractReferences "**Intro**: Hello world.\n1: url: http://example.com/page" =
      [⟨"1", "http://example.com/page"⟩] := by decide

/-- Claim C7: a paragraph none of whose line starts matches the list-item
pattern parses to none — the caller then renders it as plain prose, so an
empty list is never rendered — and the two-line example parses to exactly
two items in line order, the first with the emphasized title A and body b,
the second without a title and with body c. -/
theorem parseNumberedList_spec (p : String) :
    (hasListLine p.toList true = false → parseNumberedList p = none) ∧
    parseNumberedList "1. A: b\n2. c" =
      some [⟨"1", some "A", [Part.text "b"]⟩, ⟨"2", none, [Part.text "c"]⟩] := by
  constructor
  · intro h
    unfold parseNumberedList
    rw [listAux_eq_nil p.toList true h]
    rfl
  · decide

theorem parseNumberedList_spec_witness :
    parseNumberedList "just prose" = none ∧
    parseNumberedList "1. A: b\n2. c" =
      some [⟨"1", some "A", [Part.text "b"]⟩, ⟨"2", none, [Part.text "c"]⟩] :=
  ⟨(parseNumberedList_spec "just prose").1 (by decide), (parseNumberedList_spec "").2⟩

/-- Claim C10 counterexample: the empty fragment contains no URL match yet
the linkifier returns no parts at all rather than one plain span equal to
the input. -/
theorem linkify_identity_counterexample :
    replaceUrlsWithLinks "" = [] ∧ ([] : List Part) ≠ [Part.text ""] := by decide

/-- Claim C10 amended: on every non-empty fragment without a URL match the
linkifier returns exactly one plain span equal to the whole fragment (on
the empty fragment it returns nothing; in the application every call site
passes a non-empty fragment). -/
theorem linkify_identity (frag : String) (h1 : hasUrlOccurrence frag.toList = false)
    (h2 : frag ≠ "") : replaceUrlsWithLinks frag = [Part.text frag] := by
  unfold replaceUrlsWithLinks
  rw [linkAux_no_match frag.toList h1 []]
  cases frag with
  | mk data =>
    cases data with
    | nil => exact absurd rfl h2
    | cons c cs => simp [String.toList]

theorem linkify_identity_witness :
    replaceUrlsWithLinks "plain words" = [Part.text "plain words"] :=
  linkify_identity "plain words" (by decide) (by decide)


/-! ## Paragraph-splitting properties -/

/-- Whether two consecutive newline characters occur somewhere. -/
def hasNLNL : List Char → Bool
  | [] => false
  | [_] => false
  | c :: d :: rest => (c = '\n' && d = '\n') || hasNLNL (d :: rest)

/-- Whether a list neither starts nor ends with a whitespace character. -/
def noEdgeWs (l : List Char) : Bool :=
  (match l.head? with
   | some c => !isJsWhitespace c
   | none => true) &&
  (match l.getLast? with
   | some c => !isJsWhitespace c
   | none => true)

theorem head?_dropWhile_not (p : Char → Bool) (l : List Char) (c : Char)
    (h : (l.dropWhile p).head? = some c) : p c = false := by
  induction l with
  | nil => simp [List.dropWhile] at h
  | cons a rest ih =>
    rw [List.dropWhile_cons] at h
    by_cases hp : p a = true
    · rw [if_pos hp] at h; exact ih h
    · rw [if_neg hp] at h
      simp only [List.head?_cons, Option.some.injEq] at h
      subst h
      simpa using hp

theorem getLast?_dropWhile_eq (p : Char → Bool) (l : List Char) (c : Char)
    (h : (l.dropWhile p).getLast? = some c) : l.getLast? = some c := by
  obtain ⟨a, ha⟩ := List.dropWhile_suffix (l := l) p
  have hne : l.dropWhile p ≠ [] := by
    intro hnil; rw [hnil] at h; simp at h
  rw [← ha, List.getLast?_append_of_ne_nil a hne, h]

theorem noEdgeWs_jsTrim (l : List Char) : noEdgeWs (jsTrim l) = true := by
  unfold noEdgeWs
  rw [Bool.and_eq_true]
  constructor
  · cases hh : (jsTrim l).head? with
    | none => simp
    | some c =>
      have hc : isJsWhitespace c = false :=
        head?_dropWhile_not isJsWhitespace ((l.reverse.dropWhile isJsWhitespace).reverse) c hh
      simp [hc]
  · cases hg : (jsTrim l).getLast? with
    | none => simp
    | some c =>
      have h1 : ((l.reverse.dropWhile isJsWhitespace).reverse).getLast? = some c :=
        getLast?_dropWhile_eq isJsWhitespace _ c hg
      rw [List.getLast?_reverse] at h1
      have hc : isJsWhitespace c = false := head?_dropWhile_not isJsWhitespace l.reverse c h1
      simp [hc]

theorem hasNLNL_tail (c : Char) (rest : List Char) (h : hasNLNL (c :: rest) = false) :
    hasNLNL rest = false := by
  cases rest with
  | nil => rfl
  | cons d ds =>
    simp only [hasNLNL, Bool.or_eq_false_iff] at h
    exact h.2

theorem hasNLNL_head (rest : List Char) (h : hasNLNL ('\n' :: rest) = false) :
    rest.head? ≠ some '\n' := by
  cases rest with
  | nil => simp
  | cons d ds =>
    simp only [hasNLNL, Bool.or_eq_false_iff, Bool.and_eq_false_iff] at h
    intro hco
    simp only [List.head?_cons, Option.some.injEq] at hco
    rcases h.1 with h1 | h1
    · simp at h1
    · rw [hco] at h1; simp at h1

theorem splitNLAux_no_sep (s : List Char) :
    ∀ (acc : List Char) (pending : Nat), hasNLNL s = false → pending ≤ 1 →
      (pending = 1 → s.head? ≠ some '\n') →
      splitNLAux s acc pending = [acc.reverse ++ List.replicate pending '\n' ++ s] := by
  induction s with
  | nil =>
    intro acc pending _ hp _
    unfold splitNLAux
    rw [if_neg (by omega)]
    simp
  | cons c rest ih =>
    intro acc pending hn hp hcond
    by_cases hc : c = '\n'
    · subst hc
      have hpend0 : pending = 0 := by
        by_cases h1 : pending = 1
        · exact absurd (show ('\n' :: rest).head? = some '\n' by simp) (hcond h1)
        · omega
      subst hpend0
      unfold splitNLAux
      rw [if_pos rfl]
      rw [ih acc 1 (hasNLNL_tail _ _ hn) (by omega) (fun _ => hasNLNL_head rest hn)]
      simp
    · unfold splitNLAux
      rw [if_neg hc, if_neg (by omega)]
      rw [ih (c :: (List.replicate pending '\n' ++ acc)) 0 (hasNLNL_tail _ _ hn) (by omega)
        (by omega)]
      simp [List.reverse_append, List.reverse_replicate, List.append_assoc]

theorem paragraphsOf_no_double_newline (body : List Char) (h : hasNLNL body = false) :
    paragraphsOf body = if jsTrim body = [] then [] else [jsTrim body] := by
  unfold paragraphsOf
  rw [splitNLAux_no_sep body [] 0 h (by omega) (by omega)]
  simp only [List.reverse_nil, List.replicate, List.nil_append, List.map_cons, List.map_nil]
  by_cases he : jsTrim body = []
  · simp [he, List.filter]
  · have hne : (jsTrim body).isEmpty = false := by
      simpa [List.isEmpty_iff] using he
    simp [List.filter, he, hne]

theorem mem_sectionAux (s : List Char) :
    ∀ (skip : Nat) (sec : TextSection), sec ∈ sectionAux s skip →
      ∃ hdr body, sec = mkSection hdr body := by
  induction s with
  | nil => intro skip sec h; simp [sectionAux] at h
  | cons c rest ih =>
    intro skip sec h
    match skip with
    | skip + 1 =>
      simp only [sectionAux] at h
      exact ih skip sec h
    | 0 =>
      cases hm : matchSectionAt (c :: rest) with
      | some v =>
        obtain ⟨hdr, body, len⟩ := v
        rw [show sectionAux (c :: rest) 0 = mkSection hdr body :: sectionAux rest (len - 1) from
          by simp [sectionAux, hm]] at h
        rcases List.mem_cons.mp h with h1 | h1
        · exact ⟨hdr, body, h1⟩
        · exact ih _ sec h1
      | none =>
        rw [show sectionAux (c :: rest) 0 = sectionAux rest 0 from by simp [sectionAux, hm]] at h
        exact ih 0 sec h

theorem paragraphs_trimmed (t : String) (sec : TextSection) (hsec : sec ∈ extractSections t)
    (p : String) (hp : p ∈ sec.paragraphs) : p ≠ "" ∧ noEdgeWs p.toList = true := by
  obtain ⟨hdr, body, rfl⟩ := mem_sectionAux t.toList 0 sec hsec
  simp only [mkSection, List.mem_map] at hp
  obtain ⟨l, hl, rfl⟩ := hp
  unfold paragraphsOf at hl
  rw [List.mem_filter] at hl
  obtain ⟨hl1, hl2⟩ := hl
  rw [List.mem_map] at hl1
  obtain ⟨l0, _, rfl⟩ := hl1
  refine ⟨?_, noEdgeWs_jsTrim l0⟩
  intro hcon
  have hdata : jsTrim l0 = [] := by
    have := congrArg String.toList hcon
    simpa using this
  rw [hdata] at hl2
  simp at hl2

/-! ## Spec-modelled blank-line splitting, for comparison -/

/-- Split into lines on single newlines. -/
def splitLines : List Char → List Char → List (List Char)
  | [], acc => [acc.reverse]
  | '\n' :: rest, acc => acc.reverse :: splitLines rest []
  | c :: rest, acc => splitLines rest (c :: acc)

/-- Group lines, treating a run of two or more consecutive blank (empty)
lines as a separator; shorter runs stay inside the group. -/
def groupLinesAux : List (List Char) → List (List Char) → Nat → List (List (List Char))
  | [], acc, pending =>
    if 2 ≤ pending then [acc.reverse, []]
    else [acc.reverse ++ List.replicate pending []]
  | line :: rest, acc, pending =>
    if line.isEmpty then groupLinesAux rest acc (pending + 1)
    else if 2 ≤ pending then acc.reverse :: groupLinesAux rest [line] 0
    else groupLinesAux rest (line :: (List.replicate pending [] ++ acc)) 0

/-- Rejoin a group of lines with newlines. -/
def joinLines : List (List Char) → List Char
  | [] => []
  | [l] => l
  | l :: rest => l ++ '\n' :: joinLines rest

/-- Modelled from the spec: the body is split into paragraphs on runs of
two-or-more consecutive blank lines, each paragraph is trimmed, and
paragraphs that are empty after trimming are discarded (a blank line being
an empty line). This is the literal reading of the specification, written
for comparison with paragraphsOf, which the source computes by splitting on
runs of two-or-more newline characters. -/
def specBlankLineParagraphs (body : List Char) : List (List Char) :=
  ((((groupLinesAux (splitLines body []) [] 0).map joinLines).map jsTrim).filter
    fun p => !p.isEmpty)

/-- Claim C8 counterexample: a body with a single blank line between two
words is split in two by the source (which splits on two-or-more newline
characters) but kept whole under the claimed two-or-more-blank-lines rule,
so the claim misdescribes the splitting boundary. -/
theorem paragraph_split_counterexample :
    paragraphsOf "a\n\nb".toList = [['a'], ['b']] ∧
    specBlankLineParagraphs "a\n\nb".toList = [['a', '\n', '\n', 'b']] ∧
    paragraphsOf "a\n\nb".toList ≠ specBlankLineParagraphs "a\n\nb".toList := by decide

/-- Claim C8 amended: section bodies are split into paragraphs on runs of
two-or-more consecutive newline characters (one or more blank lines), each
paragraph is trimmed and empty paragraphs are discarded: every paragraph of
every extracted section is non-empty with no leading or trailing
whitespace, and a body without two consecutive newlines is never split —
it yields exactly its own trim, or nothing when blank. -/
theorem paragraph_split_amended (t : String) (sec : TextSection)
    (hsec : sec ∈ extractSections t) :
    (∀ p ∈ sec.paragraphs, p ≠ "" ∧ noEdgeWs p.toList = true) ∧
    (∀ body : List Char, hasNLNL body = false →
      paragraphsOf body = if jsTrim body = [] then [] else [jsTrim body]) :=
  ⟨fun p hp => paragraphs_trimmed t sec hsec p hp,
   fun body h => paragraphsOf_no_double_newline body h⟩

theorem paragraph_split_amended_witness :
    (("foo" : String) ≠ "" ∧ noEdgeWs "foo".toList = true) ∧
    paragraphsOf "x y".toList =
      (if jsTrim "x y".toList = [] then [] else [jsTrim "x y".toList]) :=
  ⟨(paragraph_split_amended "**H**\n\n foo " ⟨"H", false, ["foo"]⟩ (by decide)).1 "foo"
      (by decide),
   (paragraph_split_amended "**H**\n\n foo " ⟨"H", false, ["foo"]⟩ (by decide)).2
      "x y".toList (by decide)⟩

/-! ## Linkifier label law -/

theorem linkAux_label (s : List Char) :
    ∀ (skip : Nat) (acc : List Char) (u l : String),
      Part.link u l ∈ linkAux s skip acc → l = getWebsiteName u := by
  induction s with
  | nil =>
    intro skip acc u l h
    unfold linkAux at h
    by_cases ha : acc.isEmpty <;> simp [ha] at h
  | cons c rest ih =>
    intro skip acc u l h
    match skip with
    | skip + 1 =>
      simp only [linkAux] at h
      exact ih skip acc u l h
    | 0 =>
      cases hm : matchUrlAt (c :: rest) with
      | none =>
        rw [show linkAux (c :: rest) 0 acc = linkAux rest 0 (c :: acc) from
          by simp [linkAux, hm]] at h
        exact ih 0 (c :: acc) u l h
      | some v =>
        obtain ⟨len, cap⟩ := v
        rw [show linkAux (c :: rest) 0 acc =
            (if acc.isEmpty then [] else [Part.text ⟨acc.reverse⟩]) ++
              Part.link ⟨cap⟩ (getWebsiteName ⟨cap⟩) :: linkAux rest (len - 1) [] from
          by simp [linkAux, hm]] at h
        rw [List.mem_append] at h
        rcases h with h | h
        · by_cases ha : acc.isEmpty <;> simp [ha] at h
        · rcases List.mem_cons.mp h with h | h
          · rw [Part.link.injEq] at h
            rw [h.2, h.1]
          · exact ih (len - 1) [] u l h

/-- Claim C9: every link the linkifier emits carries as target the captured
raw URL text and as label the derivation of getWebsiteName on that same raw
text: when the URL fails to parse to a host the label falls back to the raw
URL string (and no error is raised — the embedding is total), and when
parsing succeeds the label is the host with a leading www. stripped. -/
theorem linkifier_label (frag u l : String)
    (hmem : Part.link u l ∈ replaceUrlsWithLinks frag) :
    l = getWebsiteName u ∧ (parseHost u = none → l = u) ∧
      ∀ h, parseHost u = some h → l = stripWww h := by
  have hl : l = getWebsiteName u := linkAux_label frag.toList 0 [] u l hmem
  refine ⟨hl, ?_, ?_⟩
  · intro hn; rw [hl]; simp [getWebsiteName, hn]
  · intro h hs; rw [hl]; simp [getWebsiteName, hs]

theorem linkifier_label_witness :
    ("http://^" : String) = getWebsiteName "http://^" ∧
    parseHost "http://^" = none ∧
    ("example.com" : String) = getWebsiteName "http://www.example.com/a" ∧
    parseHost "http://www.example.com/a" = some "www.example.com" :=
  ⟨(linkifier_label "see http://^ ok" "http://^" "http://^" (by decide)).1,
   by decide,
   (linkifier_label "go http://www.example.com/a now" "http://www.example.com/a" "example.com"
      (by decide)).1,
   by decide⟩


example : extractSections "pre **A** body" = [⟨"A", false, ["body"]⟩] := by decide

example : extractSections "**1. T**: a\n\n\nb" = [⟨"T", true, ["a", "b"]⟩] := by decide

example : parseNumberedList "1.  " = some [⟨"1", none, [Part.text " "]⟩] := by decide

example : parseNumberedList "1. \nx" = some [⟨"1", none, [Part.text "x"]⟩] := by decide

example : extractReferences "*1*: *url: http://a.com/x*" =
    [⟨"1", "http://a.com/x"⟩] := by decide

example : replaceUrlsWithLinks "a *Source: https://B.org/y* z" =
    [Part.text "a ", Part.link "https://B.org/y" "b.org", Part.text " z"] := by decide

example : getWebsiteName "http://user:pw@www.Host.com:8080/p?q" = "host.com" := by decide

example : getWebsiteName "http://a:99999" = "http://a:99999" := by decide

example : getWebsiteName "http://[::1]/x" = "[::1]" := by decide


end FinanceWatcher
